import Mathlib

/-!
Verification of the stream keyword alerter (reversed-keyword trie over a
power-of-two ring buffer).  The definitions below are a shallow embedding of
the Rust source `src/lib.rs`: strings become `List Char`, the `HashMap` of
trie children becomes an association list with unique keys, and the unbounded
`loop` in `StreamAlerter::query` becomes a well-founded recursion on the trie
(the loop descends one trie node per iteration).
-/

set_option maxHeartbeats 1000000

/-! ## Trie -/

inductive Trie where
  | node (is_leaf : Bool) (children : List (Char × Trie)) : Trie

def Trie.is_leaf : Trie → Bool
  | .node b _ => b

def Trie.children : Trie → List (Char × Trie)
  | .node _ cs => cs

/-- Models `HashMap::get` on the children map. -/
def childLookup : List (Char × Trie) → Char → Option Trie
  | [], _ => none
  | (c, t) :: rest, ch => if c = ch then some t else childLookup rest ch

/-- Models `HashMap::insert` on the children map (replace or append). -/
def childSet : List (Char × Trie) → Char → Trie → List (Char × Trie)
  | [], ch, t => [(ch, t)]
  | (c, u) :: rest, ch, t =>
      if c = ch then (ch, t) :: rest else (c, u) :: childSet rest ch t

/-- The body of `Trie::insert_str` after the `rev()`: inserts the character
list `key` (already reversed) as a path, marking the final node as a leaf. -/
def Trie.insertRev : Trie → List Char → Trie
  | t, [] => .node true t.children
  | t, ch :: rest =>
      let child := (childLookup t.children ch).getD (.node false [])
      .node t.is_leaf (childSet t.children ch (child.insertRev rest))

/-- Translation of `Trie::insert_str`: iterates the keyword's characters in reverse. -/
def Trie.insert_str (t : Trie) (key : List Char) : Trie :=
  t.insertRev key.reverse

/-- The body of `Trie::query_str` after the `rev()`: walks the (already
reversed) character list, returning true at the first leaf child, false at
the first missing child or at the end of the list. -/
def Trie.queryRev : Trie → List Char → Bool
  | _, [] => false
  | t, ch :: rest =>
      match childLookup t.children ch with
      | none => false
      | some child => if child.is_leaf then true else child.queryRev rest

/-- Translation of `Trie::query_str`: iterates `key` in reverse. -/
def Trie.query_str (t : Trie) (key : List Char) : Bool :=
  t.queryRev key.reverse

/-! ## Ring buffer and backward cursor -/

structure RingBuffer where
  buffer : List Char
  len : Nat
  pos : Nat

structure BackwardCursor where
  idx : Nat
  len : Nat

/-- Translation of `BackwardCursor::next`: `idx += len - 1; idx &= len - 1`, returning the
new index (the updated cursor is the first component). -/
def BackwardCursor.next (c : BackwardCursor) : BackwardCursor × Nat :=
  let i := (c.idx + (c.len - 1)) &&& (c.len - 1)
  (⟨i, c.len⟩, i)

/-- The `while len < n { len += len }` loop of `RingBuffer::new`, starting
from the given `len`.  The `len = 0` guard is a termination artifact only:
the source always starts the loop at `len = 2`. -/
def grow (len n : Nat) : Nat :=
  if len = 0 then 0
  else if len < n then grow (len + len) n
  else len
termination_by n - len
decreasing_by omega

def ringLen (n : Nat) : Nat := grow 2 n

/-- Translation of `RingBuffer::new(n)`: capacity from the doubling loop, slots initialized
to the blank sentinel `' '`, write position 0. -/
def RingBuffer.new (n : Nat) : RingBuffer :=
  { buffer := List.replicate (ringLen n) ' ', len := ringLen n, pos := 0 }

/-- Translation of `RingBuffer::insert`: write at `pos`, then `pos += 1; pos &= len - 1`. -/
def RingBuffer.insert (r : RingBuffer) (ch : Char) : RingBuffer :=
  { buffer := r.buffer.set r.pos ch, len := r.len, pos := (r.pos + 1) &&& (r.len - 1) }

/-- Translation of `RingBuffer::get`: raw indexed read (in-bounds by contract). -/
def RingBuffer.get (r : RingBuffer) (i : Nat) : Char :=
  r.buffer.getD i ' '

/-- Translation of `RingBuffer::cursor`: a fresh cursor at the current write position. -/
def RingBuffer.cursor (r : RingBuffer) : BackwardCursor :=
  ⟨r.pos, r.len⟩

/-! ## Stream alerter -/

structure StreamAlerter where
  ring : RingBuffer
  trie : Trie

/-- The `max_len` accumulation in `StreamAlerter::new`:
`if v > max_len { max_len = v }` over the keyword list. -/
def maxLen (keys : List (List Char)) : Nat :=
  keys.foldl (fun m k => if k.length > m then k.length else m) 0

/-- The trie built by `StreamAlerter::new`: every keyword inserted (reversed)
into an initially default trie. -/
def buildTrie (keys : List (List Char)) : Trie :=
  keys.foldl (fun t k => t.insert_str k) (.node false [])

/-- Translation of `StreamAlerter::new`. -/
def StreamAlerter.new (keys : List (List Char)) : StreamAlerter :=
  { ring := RingBuffer.new (maxLen keys), trie := buildTrie keys }

theorem childLookup_sizeOf_lt (ch : Char) (u : Trie) :
    ∀ cs : List (Char × Trie), childLookup cs ch = some u → sizeOf u < sizeOf cs := by
  intro cs
  induction cs with
  | nil => intro h; simp [childLookup] at h
  | cons p rest ih =>
      intro h
      obtain ⟨c, t⟩ := p
      by_cases hc : c = ch
      · rw [childLookup, if_pos hc] at h
        cases h
        simp only [List.cons.sizeOf_spec, Prod.mk.sizeOf_spec]
        omega
      · rw [childLookup, if_neg hc] at h
        have := ih h
        simp only [List.cons.sizeOf_spec, Prod.mk.sizeOf_spec]
        omega

/-- The unbounded `loop` of `StreamAlerter::query`: read the next older
character via the cursor, descend into the matching child (alarm at the
first leaf child, no alarm at the first missing child). -/
def queryLoop (r : RingBuffer) : Trie → BackwardCursor → Bool
  | t, cur =>
      let p := cur.next
      match h : childLookup t.children (r.get p.2) with
      | none => false
      | some child => if child.is_leaf then true else queryLoop r child p.1
termination_by t _ => sizeOf t
decreasing_by
  have h1 := childLookup_sizeOf_lt _ _ _ h
  cases t with
  | node b cs =>
      simp only [Trie.children] at h1
      simp only [Trie.node.sizeOf_spec]
      omega

/-- Translation of `StreamAlerter::query`: insert the character, then run the matching loop
from the trie root with a fresh cursor. -/
def StreamAlerter.query (sa : StreamAlerter) (ch : Char) : Bool :=
  let ring2 := sa.ring.insert ch
  queryLoop ring2 sa.trie ring2.cursor

/-- The state mutation performed by `StreamAlerter::query` (the ring insert;
the trie is never mutated). -/
def StreamAlerter.feed (sa : StreamAlerter) (ch : Char) : StreamAlerter :=
  { sa with ring := sa.ring.insert ch }

def feedAll (sa : StreamAlerter) (xs : List Char) : StreamAlerter :=
  xs.foldl StreamAlerter.feed sa

/-- The boolean outputs of a sequence of `query` calls, one per character. -/
def runQueries (sa : StreamAlerter) : List Char → List Bool
  | [] => []
  | ch :: rest => sa.query ch :: runQueries (sa.feed ch) rest

/-! ## Fueled companions (for kernel computation of the two
well-founded definitions) -/

def growFuel : Nat → Nat → Nat → Nat
  | 0, len, _ => len
  | fuel + 1, len, n => if len < n then growFuel fuel (len + len) n else len

/-- Fueled version of the query loop: `none` when the fuel runs out before
the loop returns. -/
def queryLoopF (r : RingBuffer) : Nat → Trie → BackwardCursor → Option Bool
  | 0, _, _ => none
  | fuel + 1, t, cur =>
      let p := cur.next
      match childLookup t.children (r.get p.2) with
      | none => some false
      | some child => if child.is_leaf then some true else queryLoopF r fuel child p.1

/-- The characters read by successive `cursor.next()` indexed reads from the
buffer (the sequence consumed by the query loop). -/
def cursorReads (r : RingBuffer) : BackwardCursor → Nat → List Char
  | _, 0 => []
  | cur, n + 1 => r.get cur.next.2 :: cursorReads r cur.next.1 n

/-- The cursor after `n` calls to `next`. -/
def BackwardCursor.iter (c : BackwardCursor) : Nat → BackwardCursor
  | 0 => c
  | n + 1 => (c.iter n).next.1

/-- The last `n` elements of a list (all of it when `n ≥ length`). -/
def lastN (n : Nat) (l : List Char) : List Char := l.drop (l.length - n)

/-- Predicate `hasTermB t w`: the path labelled `w` exists in `t` and ends at a node
marked as a leaf. -/
def hasTermB : Trie → List Char → Bool
  | t, [] => t.is_leaf
  | t, ch :: rest =>
      match childLookup t.children ch with
      | none => false
      | some child => hasTermB child rest

/-- Predicate `StepsOK n t`: starting from `t`, the query loop returns within at most
`n` iterations (every matched child is a leaf or recursively bounded). -/
def StepsOK : Nat → Trie → Prop
  | 0, _ => False
  | n + 1, t => ∀ c u, childLookup t.children c = some u → u.is_leaf = true ∨ StepsOK n u

/-- Invariant of a ring buffer of capacity `L` after the character stream
`xs` has been inserted into a fresh buffer: the buffer read in chronological
order (slots `pos, pos+1, …` wrapping) is the last `L` characters of the
blank-padded stream. -/
def RingInv (L : Nat) (r : RingBuffer) (xs : List Char) : Prop :=
  r.len = L ∧ r.buffer.length = L ∧ r.pos < L ∧ 2 ≤ L ∧ (∃ j, L = 2 ^ j) ∧
    r.buffer.drop r.pos ++ r.buffer.take r.pos = lastN L (List.replicate L ' ' ++ xs)

/-! ## The doubling loop: value and fuel equivalence -/

theorem growFuel_eq_grow :
    ∀ (fuel len n : Nat), 0 < len → n ≤ len + fuel → growFuel fuel len n = grow len n := by
  intro fuel
  induction fuel with
  | zero =>
      intro len n h1 h2
      rw [grow, if_neg (by omega), if_neg (by omega)]
      rfl
  | succ m ih =>
      intro len n h1 h2
      by_cases hlt : len < n
      · rw [growFuel, if_pos hlt, grow, if_neg (by omega), if_pos hlt]
        exact ih (len + len) n (by omega) (by omega)
      · rw [growFuel, if_neg hlt, grow, if_neg (by omega), if_neg hlt]

theorem ringLen_eq_fuel (n : Nat) : ringLen n = growFuel n 2 n :=
  (growFuel_eq_grow n 2 n (by omega) (by omega)).symm

theorem grow_spec : ∀ (len n : Nat), 0 < len →
    (∃ j, grow len n = len * 2 ^ j) ∧ len ≤ grow len n ∧ n ≤ grow len n ∧
      (grow len n = len ∨ grow len n < 2 * n) := by
  intro len n
  induction len, n using grow.induct with
  | case1 n => intro h; omega
  | case2 len n hz hlt ih =>
      intro h
      obtain ⟨⟨j, hj⟩, hle, hn, hor⟩ := ih (by omega)
      rw [grow, if_neg (by omega), if_pos hlt]
      refine ⟨⟨j + 1, by rw [hj]; ring⟩, by omega, hn, ?_⟩
      rcases hor with h3 | h3
      · right; omega
      · right; omega
  | case3 len n hz hlt =>
      intro h
      rw [grow, if_neg hz, if_neg hlt]
      exact ⟨⟨0, by ring⟩, le_refl _, by omega, Or.inl rfl⟩

/-- The buffer capacity is a power of two, at least 2, and at least the
requested size. -/
theorem ringLen_spec (n : Nat) :
    (∃ j, ringLen n = 2 ^ (j + 1)) ∧ 2 ≤ ringLen n ∧ n ≤ ringLen n ∧
      (ringLen n = 2 ∨ ringLen n < 2 * n) := by
  obtain ⟨⟨j, hj⟩, hle, hn, hor⟩ := grow_spec 2 n (by omega)
  refine ⟨⟨j, by rw [ringLen, hj]; ring⟩, hle, hn, hor⟩

/-- One-step unfolding of the well-founded `queryLoop`. -/
theorem queryLoop_eq (r : RingBuffer) (t : Trie) (cur : BackwardCursor) :
    queryLoop r t cur =
      match childLookup t.children (r.get cur.next.2) with
      | none => false
      | some child => if child.is_leaf then true else queryLoop r child cur.next.1 := by
  rw [queryLoop]
  cases hl : childLookup t.children (r.get cur.next.2) <;> simp [hl]

theorem queryLoopF_succ (r : RingBuffer) (m : Nat) (t : Trie) (cur : BackwardCursor) :
    queryLoopF r (m + 1) t cur =
      match childLookup t.children (r.get cur.next.2) with
      | none => some false
      | some child => if child.is_leaf then some true else queryLoopF r m child cur.next.1 :=
  rfl

theorem queryLoopF_some (r : RingBuffer) :
    ∀ (fuel : Nat) (t : Trie) (cur : BackwardCursor) (b : Bool),
      queryLoopF r fuel t cur = some b → queryLoop r t cur = b := by
  intro fuel
  induction fuel with
  | zero => intro t cur b h; simp [queryLoopF] at h
  | succ m ih =>
      intro t cur b h
      rw [queryLoopF_succ] at h
      rw [queryLoop_eq]
      cases hl : childLookup t.children (r.get cur.next.2) with
      | none =>
          simp only [hl] at h ⊢
          exact (Option.some.inj h)
      | some child =>
          simp only [hl] at h ⊢
          by_cases hleaf : child.is_leaf = true
          · simp only [hleaf, if_true] at h ⊢
            exact Option.some.inj h
          · simp only [if_neg hleaf] at h ⊢
            exact ih child cur.next.1 b h
/-! ## Cursor arithmetic -/

theorem cursor_next_mod (c : BackwardCursor) (j : Nat) (hl : c.len = 2 ^ j) :
    c.next.2 = (c.idx + (c.len - 1)) % c.len := by
  show (c.idx + (c.len - 1)) &&& (c.len - 1) = _
  rw [hl]
  exact Nat.and_pow_two_sub_one_eq_mod _ j

theorem cursor_next_idx (c : BackwardCursor) : c.next.1 = ⟨c.next.2, c.len⟩ := rfl

theorem cursor_iter_inv (c : BackwardCursor) (j : Nat) (hl : c.len = 2 ^ j)
    (hi : c.idx < c.len) :
    ∀ n, (c.iter n).len = c.len ∧ (c.iter n).idx < c.len := by
  intro n
  induction n with
  | zero => exact ⟨rfl, hi⟩
  | succ m ih =>
      obtain ⟨h1, h2⟩ := ih
      have hpos : 0 < c.len := by rw [hl]; exact Nat.pos_pow_of_pos j (by omega)
      constructor
      · show (c.iter m).next.1.len = c.len
        rw [cursor_next_idx]
        exact h1
      · show (c.iter m).next.1.idx < c.len
        rw [cursor_next_idx]
        show (c.iter m).next.2 < c.len
        rw [cursor_next_mod (c.iter m) j (h1.trans hl), h1]
        exact Nat.mod_lt _ hpos
/-! ## Trie characterization -/

@[simp] theorem Trie.children_node (b : Bool) (cs : List (Char × Trie)) :
    (Trie.node b cs).children = cs := rfl

@[simp] theorem Trie.is_leaf_node (b : Bool) (cs : List (Char × Trie)) :
    (Trie.node b cs).is_leaf = b := rfl

theorem hasTermB_nil (t : Trie) : hasTermB t [] = t.is_leaf := rfl

theorem hasTermB_cons (t : Trie) (ch : Char) (rest : List Char) :
    hasTermB t (ch :: rest) =
      match childLookup t.children ch with
      | none => false
      | some child => hasTermB child rest := rfl

theorem insertRev_nil (t : Trie) : t.insertRev [] = .node true t.children := rfl

theorem insertRev_cons (t : Trie) (a : Char) (w : List Char) :
    t.insertRev (a :: w) =
      .node t.is_leaf
        (childSet t.children a (((childLookup t.children a).getD (.node false [])).insertRev w)) :=
  rfl

theorem childLookup_childSet (cs : List (Char × Trie)) (ch c : Char) (t : Trie) :
    childLookup (childSet cs ch t) c = if c = ch then some t else childLookup cs c := by
  induction cs with
  | nil =>
      rw [childSet, childLookup, childLookup]
      by_cases hc : ch = c
      · rw [if_pos hc, if_pos hc.symm]
      · rw [if_neg hc, if_neg (fun h : c = ch => hc h.symm), childLookup]
  | cons p rest ih =>
      obtain ⟨c0, u⟩ := p
      by_cases h0 : c0 = ch
      · subst h0
        rw [childSet, if_pos rfl, childLookup]
        by_cases hc : c0 = c
        · rw [if_pos hc, if_pos hc.symm]
        · rw [if_neg hc, if_neg (fun h : c = c0 => hc h.symm), childLookup, if_neg hc]
      · rw [childSet, if_neg h0, childLookup]
        by_cases hc : c0 = c
        · subst hc
          rw [if_pos rfl, if_neg (fun h : c0 = ch => h0 h), childLookup, if_pos rfl]
        · rw [if_neg hc, ih]
          rw [childLookup, if_neg hc]

theorem hasTermB_empty_node (v : List Char) : hasTermB (.node false []) v = false := by
  cases v with
  | nil => rfl
  | cons c rest => rfl

theorem hasTermB_insertRev :
    ∀ (w : List Char) (t : Trie) (v : List Char),
      hasTermB (t.insertRev w) v = true ↔ (v = w ∨ hasTermB t v = true) := by
  intro w
  induction w with
  | nil =>
      intro t v
      cases v with
      | nil => simp [insertRev_nil, hasTermB_nil]
      | cons c rest =>
          rw [insertRev_nil, hasTermB_cons, hasTermB_cons, Trie.children_node]
          simp
  | cons a w' ih =>
      intro t v
      cases v with
      | nil =>
          rw [insertRev_cons, hasTermB_nil, hasTermB_nil, Trie.is_leaf_node]
          simp
      | cons c rest =>
          rw [insertRev_cons, hasTermB_cons, hasTermB_cons, Trie.children_node]
          rw [childLookup_childSet]
          by_cases hc : c = a
          · subst hc
            rw [if_pos rfl, ih]
            cases hl : childLookup t.children c with
            | none =>
                simp only [hl, Option.getD_none, Option.getD_some, hasTermB_empty_node]
                simp
            | some u =>
                simp only [hl, Option.getD_some]
                simp
          · rw [if_neg hc]
            cases hl : childLookup t.children c with
            | none => simp [hc]
            | some u => simp [hc]

theorem hasTermB_foldl :
    ∀ (keys : List (List Char)) (t : Trie) (v : List Char),
      hasTermB (keys.foldl (fun u k => u.insert_str k) t) v = true ↔
        ((∃ k ∈ keys, v = k.reverse) ∨ hasTermB t v = true) := by
  intro keys
  induction keys with
  | nil => simp
  | cons k0 rest ih =>
      intro t v
      rw [List.foldl_cons, ih]
      rw [Trie.insert_str, hasTermB_insertRev]
      constructor
      · rintro (h | h | h)
        · obtain ⟨k, hk, hv⟩ := h
          exact Or.inl ⟨k, List.mem_cons_of_mem _ hk, hv⟩
        · exact Or.inl ⟨k0, List.mem_cons_self _ _, h⟩
        · exact Or.inr h
      · rintro (⟨k, hk, hv⟩ | h)
        · rcases List.mem_cons.mp hk with h1 | h1
          · subst h1; exact Or.inr (Or.inl hv)
          · exact Or.inl ⟨k, h1, hv⟩
        · exact Or.inr (Or.inr h)

/-- A node of `buildTrie keys` reached by path `v` is terminal exactly when
`v` is the reversal of one of the keywords. -/
theorem hasTermB_buildTrie (keys : List (List Char)) (v : List Char) :
    hasTermB (buildTrie keys) v = true ↔ ∃ k ∈ keys, v = k.reverse := by
  rw [buildTrie, hasTermB_foldl]
  rw [hasTermB_empty_node]
  simp

theorem queryRev_iff :
    ∀ (r : List Char) (t : Trie),
      t.queryRev r = true ↔
        ∃ d, 1 ≤ d ∧ d ≤ r.length ∧ hasTermB t (r.take d) = true := by
  intro r
  induction r with
  | nil =>
      intro t
      rw [Trie.queryRev]
      constructor
      · intro h; exact absurd h (by simp)
      · rintro ⟨d, h1, h2, _⟩
        simp at h2
        omega
  | cons c r' ih =>
      intro t
      rw [Trie.queryRev]
      cases hl : childLookup t.children c with
      | none =>
          constructor
          · intro h; exact absurd h (by simp)
          · rintro ⟨d, h1, h2, h3⟩
            obtain ⟨d', rfl⟩ : ∃ d', d = d' + 1 := ⟨d - 1, by omega⟩
            rw [List.take_succ_cons, hasTermB_cons, hl] at h3
            have h4 : (false : Bool) = true := h3
            exact absurd h4 (by decide)
      | some child =>
          by_cases hleaf : child.is_leaf = true
          · simp only [hleaf, if_true]
            constructor
            · intro _
              refine ⟨1, le_refl _, by simp, ?_⟩
              rw [List.take_succ_cons, List.take_zero, hasTermB_cons, hl]
              exact hleaf
            · intro _; trivial
          · simp only [if_neg hleaf]
            rw [ih]
            constructor
            · rintro ⟨d, h1, h2, h3⟩
              refine ⟨d + 1, by omega, by simp; omega, ?_⟩
              rw [List.take_succ_cons, hasTermB_cons, hl]
              exact h3
            · rintro ⟨d, h1, h2, h3⟩
              obtain ⟨d', rfl⟩ : ∃ d', d = d' + 1 := ⟨d - 1, by omega⟩
              rw [List.take_succ_cons, hasTermB_cons, hl] at h3
              have h4 : hasTermB child (List.take d' r') = true := h3
              rcases Nat.eq_zero_or_pos d' with h0 | h0
              · subst h0
                rw [List.take_zero, hasTermB_nil] at h4
                exact absurd h4 hleaf
              · refine ⟨d', h0, by simp at h2; omega, h4⟩

/-- Lemma: `Trie::query_str` returns true exactly when some non-empty registered
keyword is a suffix of the queried text. -/
theorem query_str_iff (keys : List (List Char)) (text : List Char) :
    Trie.query_str (buildTrie keys) text = true ↔
      ∃ k ∈ keys, k ≠ [] ∧ k <:+ text := by
  rw [Trie.query_str, queryRev_iff]
  constructor
  · rintro ⟨d, h1, h2, h3⟩
    rw [hasTermB_buildTrie] at h3
    obtain ⟨k, hk, hv⟩ := h3
    rw [List.length_reverse] at h2
    have hklen : k.length = d := by
      have := congrArg List.length hv
      rw [List.length_take, List.length_reverse, List.length_reverse] at this
      omega
    refine ⟨k, hk, ?_, ?_⟩
    · intro hnil
      subst hnil
      simp at hklen
      omega
    · refine ⟨(text.reverse.drop d).reverse, ?_⟩
      have hsplit : k.reverse ++ text.reverse.drop d = text.reverse := by
        rw [← hv]
        exact List.take_append_drop d text.reverse
      have := congrArg List.reverse hsplit
      rw [List.reverse_append, List.reverse_reverse, List.reverse_reverse] at this
      exact this
  · rintro ⟨k, hk, hne, u, hu⟩
    have hlen : u.length + k.length = text.length := by
      have := congrArg List.length hu
      rw [List.length_append] at this
      exact this
    have hkpos : 0 < k.length := List.length_pos.mpr hne
    refine ⟨k.length, hkpos, ?_, ?_⟩
    · rw [List.length_reverse]; omega
    · rw [hasTermB_buildTrie]
      refine ⟨k, hk, ?_⟩
      rw [← hu, List.reverse_append]
      rw [List.take_append_of_le_length (by rw [List.length_reverse])]
      conv_lhs => rw [← List.length_reverse k]
      rw [List.take_length]

/-! ## Bounded loop depth -/

theorem StepsOK_mono :
    ∀ (n m : Nat) (t : Trie), StepsOK n t → n ≤ m → StepsOK m t := by
  intro n
  induction n with
  | zero => intro m t h _; exact absurd h id
  | succ n' ih =>
      intro m t h hle
      obtain ⟨m', rfl⟩ : ∃ m', m = m' + 1 := ⟨m - 1, by omega⟩
      intro c u hcu
      rcases h c u hcu with h1 | h1
      · exact Or.inl h1
      · exact Or.inr (ih m' u h1 (by omega))

theorem StepsOK_congr (n : Nat) (b b' : Bool) (cs : List (Char × Trie)) :
    StepsOK n (.node b cs) → StepsOK n (.node b' cs) := by
  cases n with
  | zero => intro h; exact absurd h id
  | succ n' => intro h c u hcu; exact h c u hcu

theorem StepsOK_insertRev :
    ∀ (w : List Char) (t : Trie) (n : Nat),
      StepsOK n t → w.length ≤ n → StepsOK n (t.insertRev w) := by
  intro w
  induction w with
  | nil =>
      intro t n h _
      rw [insertRev_nil]
      cases t with
      | node b cs => exact StepsOK_congr n b true cs h
  | cons a w' ih =>
      intro t n h hlen
      have hn : 1 ≤ n := by
        simp only [List.length_cons] at hlen
        omega
      obtain ⟨m, rfl⟩ : ∃ m, n = m + 1 := ⟨n - 1, by omega⟩
      rw [insertRev_cons]
      intro c u hcu
      rw [Trie.children_node, childLookup_childSet] at hcu
      by_cases hc : c = a
      · rw [if_pos hc] at hcu
        cases hcu
        cases w' with
        | nil =>
            left
            rw [insertRev_nil]
            rfl
        | cons b' w'' =>
            set child0 := (childLookup t.children a).getD (.node false []) with hchild0
            by_cases hleaf : child0.is_leaf = true
            · left
              rw [insertRev_cons, Trie.is_leaf_node]
              exact hleaf
            · right
              have hstep : StepsOK m child0 := by
                cases hl : childLookup t.children a with
                | none =>
                    rw [hchild0, hl]
                    obtain ⟨m', rfl⟩ : ∃ m', m = m' + 1 := by
                      simp only [List.length_cons] at hlen
                      exact ⟨m - 1, by omega⟩
                    intro c2 u2 hcu2
                    simp [childLookup] at hcu2
                | some u0 =>
                    rcases h a u0 hl with h1 | h1
                    · exact absurd (by rw [hchild0, hl]; exact h1) hleaf
                    · rw [hchild0, hl]; exact h1
              refine ih child0 m hstep ?_
              simp only [List.length_cons] at hlen ⊢
              omega
      · rw [if_neg hc] at hcu
        exact h c u hcu

theorem maxLen_eq_foldl_max (keys : List (List Char)) :
    ∀ a, keys.foldl (fun m k => if k.length > m then k.length else m) a =
      keys.foldl (fun m k => max m k.length) a := by
  induction keys with
  | nil => intro a; rfl
  | cons k rest ih =>
      intro a
      rw [List.foldl_cons, List.foldl_cons, ih]
      congr 1
      by_cases h : k.length > a
      · rw [if_pos h]; omega
      · rw [if_neg h]; omega

theorem foldl_max_le_init (keys : List (List Char)) :
    ∀ a, a ≤ keys.foldl (fun m k => max m k.length) a := by
  induction keys with
  | nil => intro a; exact le_refl a
  | cons k rest ih =>
      intro a
      rw [List.foldl_cons]
      exact le_trans (le_max_left _ _) (ih _)

theorem maxLen_mem_le (keys : List (List Char)) :
    ∀ (a : Nat) (k : List Char), k ∈ keys →
      k.length ≤ keys.foldl (fun m k => max m k.length) a := by
  induction keys with
  | nil => intro a k hk; exact absurd hk (by simp)
  | cons k0 rest ih =>
      intro a k hk
      rw [List.foldl_cons]
      rcases List.mem_cons.mp hk with h | h
      · subst h
        exact le_trans (le_max_right _ _) (foldl_max_le_init rest _)
      · exact ih _ k h

theorem maxLen_ge (keys : List (List Char)) (k : List Char) (hk : k ∈ keys) :
    k.length ≤ maxLen keys := by
  rw [maxLen, maxLen_eq_foldl_max]
  exact maxLen_mem_le keys 0 k hk

theorem StepsOK_buildTrie (keys : List (List Char)) :
    StepsOK (max 1 (maxLen keys)) (buildTrie keys) := by
  rw [buildTrie]
  have hroot : StepsOK (max 1 (maxLen keys)) (.node false []) := by
    obtain ⟨m, hm⟩ : ∃ m, max 1 (maxLen keys) = m + 1 :=
      ⟨max 1 (maxLen keys) - 1, by omega⟩
    rw [hm]
    intro c u hcu
    simp [childLookup] at hcu
  have hgen : ∀ (l : List (List Char)) (t : Trie), StepsOK (max 1 (maxLen keys)) t →
      (∀ k ∈ l, k.length ≤ max 1 (maxLen keys)) →
      StepsOK (max 1 (maxLen keys)) (l.foldl (fun u k => u.insert_str k) t) := by
    intro l
    induction l with
    | nil => intro t ht _; exact ht
    | cons k0 rest ih =>
        intro t ht hlen
        rw [List.foldl_cons]
        refine ih _ ?_ (fun k hk => hlen k (List.mem_cons_of_mem _ hk))
        rw [Trie.insert_str]
        refine StepsOK_insertRev _ _ _ ht ?_
        rw [List.length_reverse]
        exact hlen k0 (List.mem_cons_self _ _)
  refine hgen keys _ hroot ?_
  intro k hk
  exact le_trans (maxLen_ge keys k hk) (le_max_right _ _)

theorem queryLoopF_isSome_of_StepsOK (r : RingBuffer) :
    ∀ (n : Nat) (t : Trie), StepsOK n t →
      ∀ cur, ∃ b, queryLoopF r n t cur = some b := by
  intro n
  induction n with
  | zero => intro t h; exact absurd h id
  | succ m ih =>
      intro t h cur
      rw [queryLoopF_succ]
      cases hl : childLookup t.children (r.get cur.next.2) with
      | none => exact ⟨false, rfl⟩
      | some child =>
          show ∃ b, (if child.is_leaf = true then some true
            else queryLoopF r m child cur.next.1) = some b
          by_cases hleaf : child.is_leaf = true
          · rw [if_pos hleaf]
            exact ⟨true, rfl⟩
          · rw [if_neg hleaf]
            rcases h _ _ hl with h1 | h1
            · exact absurd h1 hleaf
            · exact ih child h1 cur.next.1

/-- The unbounded loop agrees with a walk of `queryRev` over the cursor's
read sequence, as soon as the read sequence is at least as long as the
loop's iteration bound. -/
theorem queryLoop_eq_queryRev (r : RingBuffer) :
    ∀ (n : Nat) (t : Trie) (cur : BackwardCursor) (m : Nat),
      StepsOK n t → n ≤ m →
      queryLoop r t cur = t.queryRev (cursorReads r cur m) := by
  intro n
  induction n with
  | zero => intro t cur m h; exact absurd h id
  | succ n' ih =>
      intro t cur m h hm
      obtain ⟨m', rfl⟩ : ∃ m', m = m' + 1 := ⟨m - 1, by omega⟩
      rw [queryLoop_eq, cursorReads, Trie.queryRev]
      cases hl : childLookup t.children (r.get cur.next.2) with
      | none => rfl
      | some child =>
          show (if child.is_leaf = true then true else queryLoop r child cur.next.1) =
            (if child.is_leaf = true then true else child.queryRev (cursorReads r cur.next.1 m'))
          by_cases hleaf : child.is_leaf = true
          · rw [if_pos hleaf, if_pos hleaf]
          · rw [if_neg hleaf, if_neg hleaf]
            rcases h _ _ hl with h1 | h1
            · exact absurd h1 hleaf
            · exact ih child cur.next.1 m' h1 (by omega)

/-! ## Cursor reads and the buffer window -/

theorem cursorReads_succ (r : RingBuffer) (cur : BackwardCursor) (n : Nat) :
    cursorReads r cur (n + 1) = r.get cur.next.2 :: cursorReads r cur.next.1 n := rfl

theorem cursorReads_window (r : RingBuffer) (L j : Nat) (hL : L = 2 ^ j)
    (hb : r.buffer.length = L) :
    ∀ (n pos : Nat), pos < L → n ≤ L →
      cursorReads r ⟨pos, L⟩ n =
        ((r.buffer.drop pos ++ r.buffer.take pos).reverse).take n := by
  have hL1 : 1 ≤ L := by rw [hL]; exact Nat.one_le_two_pow
  intro n
  induction n with
  | zero => intro pos _ _; rfl
  | succ n ih =>
      intro pos hpos hn
      rw [cursorReads_succ]
      have hmask : (⟨pos, L⟩ : BackwardCursor).next.2 = (pos + (L - 1)) % L :=
        cursor_next_mod ⟨pos, L⟩ j hL
      have hcur1 : (⟨pos, L⟩ : BackwardCursor).next.1 =
          ⟨(pos + (L - 1)) % L, L⟩ := by
        rw [cursor_next_idx, hmask]
      cases pos with
      | zero =>
          have hc1 : (0 + (L - 1)) % L = L - 1 := by
            rw [Nat.zero_add]
            exact Nat.mod_eq_of_lt (by omega)
          rw [hmask, hcur1, hc1]
          have hlast : L - 1 < r.buffer.length := by omega
          have hdropL : r.buffer.drop (L - 1) = [r.buffer[L - 1]] := by
            rw [List.drop_eq_getElem_cons hlast]
            have : L - 1 + 1 = r.buffer.length := by omega
            rw [this, List.drop_length]
          have hrev : r.buffer.reverse =
              r.buffer[L - 1] :: (r.buffer.take (L - 1)).reverse := by
            conv_lhs => rw [← List.take_append_drop (L - 1) r.buffer]
            rw [hdropL, List.reverse_append]
            rfl
          rw [List.drop_zero, List.take_zero, List.append_nil, hrev, List.take_succ_cons]
          rw [ih (L - 1) (by omega) (by omega)]
          rw [hdropL]
          rw [List.reverse_append, List.take_append_of_le_length]
          · rw [RingBuffer.get, List.getD_eq_getElem r.buffer ' ' hlast]
          · rw [List.length_reverse, List.length_take]
            omega
      | succ p =>
          have hc1 : (p + 1 + (L - 1)) % L = p := by
            have h1 : p + 1 + (L - 1) = p + L := by omega
            rw [h1, Nat.add_mod_right]
            exact Nat.mod_eq_of_lt (by omega)
          rw [hmask, hcur1, hc1]
          have hp : p < r.buffer.length := by omega
          have htake : r.buffer.take (p + 1) = r.buffer.take p ++ [r.buffer[p]] := by
            rw [← List.take_concat_get r.buffer p hp, List.concat_eq_append]
          have hdrop : r.buffer.drop p = r.buffer[p] :: r.buffer.drop (p + 1) :=
            List.drop_eq_getElem_cons hp
          rw [htake, ← List.append_assoc, List.reverse_append, List.reverse_append]
          show _ = (r.buffer[p] :: ((r.buffer.take p).reverse ++ (r.buffer.drop (p + 1)).reverse)).take (n + 1)
          rw [List.take_succ_cons]
          rw [ih p (by omega) (by omega)]
          rw [hdrop, List.reverse_append, List.reverse_cons]
          rw [← List.append_assoc, List.take_append_of_le_length]
          · rw [RingBuffer.get, List.getD_eq_getElem r.buffer ' ' hp]
          · rw [List.length_append, List.length_reverse, List.length_reverse,
              List.length_take, List.length_drop]
            omega

/-! ## Ring buffer invariant -/

theorem ringInv_new (n : Nat) : RingInv (ringLen n) (RingBuffer.new n) [] := by
  obtain ⟨⟨j, hj⟩, h2, _, _⟩ := ringLen_spec n
  refine ⟨rfl, List.length_replicate _ _, by simp only [RingBuffer.new]; omega, h2,
    ⟨j + 1, hj⟩, ?_⟩
  show List.replicate (ringLen n) ' ' ++ [] = _
  rw [List.append_nil, lastN, List.length_replicate, Nat.sub_self, List.drop_zero]

theorem ringInv_insert (L : Nat) (r : RingBuffer) (xs : List Char) (ch : Char)
    (h : RingInv L r xs) : RingInv L (r.insert ch) (xs ++ [ch]) := by
  obtain ⟨hlen, hblen, hpos, hL2, ⟨j, hj⟩, hw⟩ := h
  have hL1 : 1 ≤ L := by omega
  have hmask : (r.pos + 1) &&& (r.len - 1) = (r.pos + 1) % L := by
    rw [hlen, hj]
    exact Nat.and_pow_two_sub_one_eq_mod _ j
  have hposb : r.pos < r.buffer.length := by omega
  -- the new window is the old window shifted by one with `ch` appended
  have htail : lastN L (List.replicate L ' ' ++ (xs ++ [ch])) =
      (r.buffer.drop r.pos ++ r.buffer.take r.pos).drop 1 ++ [ch] := by
    rw [hw, lastN, lastN, ← List.append_assoc]
    rw [List.length_append, List.length_append, List.length_replicate]
    have h1 : L + xs.length + [ch].length - L = xs.length + 1 := by
      simp only [List.length_cons, List.length_nil]
      omega
    have h2 : L + xs.length - L = xs.length := by omega
    rw [h1, h2]
    rw [List.drop_append_of_le_length (by rw [List.length_append, List.length_replicate]; omega)]
    rw [List.drop_drop]
  constructor
  · exact hlen
  constructor
  · rw [RingBuffer.insert]
    show (r.buffer.set r.pos ch).length = L
    rw [List.length_set]
    exact hblen
  constructor
  · show (r.pos + 1) &&& (r.len - 1) < L
    rw [hmask]
    exact Nat.mod_lt _ (by omega)
  refine ⟨hL2, ⟨j, hj⟩, ?_⟩
  show (r.buffer.set r.pos ch).drop ((r.pos + 1) &&& (r.len - 1)) ++
      (r.buffer.set r.pos ch).take ((r.pos + 1) &&& (r.len - 1)) = _
  rw [htail, hmask]
  by_cases hfull : r.pos + 1 = L
  · have hm0 : (r.pos + 1) % L = 0 := by rw [hfull]; exact Nat.mod_self L
    rw [hm0, List.drop_zero, List.take_zero, List.append_nil]
    rw [List.set_eq_take_cons_drop ch hposb]
    have hdropnil : r.buffer.drop (r.pos + 1) = [] := by
      rw [← hblen] at hfull
      rw [hfull, List.drop_length]
    rw [hdropnil]
    have hdrop : r.buffer.drop r.pos = r.buffer[r.pos] :: r.buffer.drop (r.pos + 1) :=
      List.drop_eq_getElem_cons hposb
    rw [hdrop, hdropnil, List.cons_append, List.drop_one, List.tail_cons, List.nil_append]
  · have hm1 : (r.pos + 1) % L = r.pos + 1 := Nat.mod_eq_of_lt (by omega)
    rw [hm1]
    have hdropset : (r.buffer.set r.pos ch).drop (r.pos + 1) = r.buffer.drop (r.pos + 1) := by
      rw [List.drop_set, if_pos (by omega)]
    have htakeset : (r.buffer.set r.pos ch).take (r.pos + 1) = r.buffer.take r.pos ++ [ch] := by
      rw [List.set_eq_take_cons_drop ch hposb, List.take_append_eq_append_take]
      rw [List.take_of_length_le (by rw [List.length_take]; omega)]
      rw [List.length_take]
      have : r.pos + 1 - min r.pos r.buffer.length = 1 := by omega
      rw [this, List.take_succ_cons, List.take_zero]
    rw [hdropset, htakeset]
    have hdrop : r.buffer.drop r.pos = r.buffer[r.pos] :: r.buffer.drop (r.pos + 1) :=
      List.drop_eq_getElem_cons hposb
    rw [hdrop, List.cons_append, List.drop_one, List.tail_cons, List.append_assoc]

theorem ringInv_feed (L : Nat) :
    ∀ (xs : List Char) (r : RingBuffer) (ys : List Char),
      RingInv L r ys → RingInv L (xs.foldl RingBuffer.insert r) (ys ++ xs) := by
  intro xs
  induction xs with
  | nil => intro r ys h; rw [List.append_nil]; exact h
  | cons x rest ih =>
      intro r ys h
      rw [List.foldl_cons]
      have := ih (r.insert x) (ys ++ [x]) (ringInv_insert L r ys x h)
      rw [List.append_assoc] at this
      exact this

/-! ## The master refinement: a streaming query equals `query_str` on the
current window of the blank-padded stream -/

theorem feedAll_trie (sa : StreamAlerter) :
    ∀ xs : List Char, (feedAll sa xs).trie = sa.trie := by
  intro xs
  induction xs generalizing sa with
  | nil => rfl
  | cons x rest ih => exact (ih (sa.feed x)).trans rfl

theorem feedAll_ring (sa : StreamAlerter) :
    ∀ xs : List Char, (feedAll sa xs).ring = xs.foldl RingBuffer.insert sa.ring := by
  intro xs
  induction xs generalizing sa with
  | nil => rfl
  | cons x rest ih => exact (ih (sa.feed x)).trans rfl

theorem feedAll_snoc (sa : StreamAlerter) (xs : List Char) (ch : Char) :
    feedAll sa (xs ++ [ch]) = (feedAll sa xs).feed ch := by
  rw [feedAll, List.foldl_append]
  rfl

theorem queryAt (keys : List (List Char)) (p : List Char) (ch : Char) :
    (feedAll (StreamAlerter.new keys) p).query ch =
      Trie.query_str (buildTrie keys)
        (lastN (ringLen (maxLen keys))
          (List.replicate (ringLen (maxLen keys)) ' ' ++ (p ++ [ch]))) := by
  have hinv : RingInv (ringLen (maxLen keys))
      ((feedAll (StreamAlerter.new keys) p).ring.insert ch) (p ++ [ch]) := by
    rw [feedAll_ring]
    have h0 : RingInv (ringLen (maxLen keys)) (RingBuffer.new (maxLen keys)) [] :=
      ringInv_new _
    have h1 := ringInv_feed (ringLen (maxLen keys)) p _ [] h0
    rw [List.nil_append] at h1
    exact ringInv_insert _ _ _ ch h1
  obtain ⟨hlen, hblen, hpos, hL2, ⟨j, hj⟩, hw⟩ := hinv
  have htrie : (feedAll (StreamAlerter.new keys) p).trie = buildTrie keys :=
    feedAll_trie _ _
  show queryLoop _ (feedAll (StreamAlerter.new keys) p).trie _ = _
  rw [htrie]
  set r2 := (feedAll (StreamAlerter.new keys) p).ring.insert ch with hr2
  have hstep : StepsOK (max 1 (maxLen keys)) (buildTrie keys) := StepsOK_buildTrie keys
  have hmax : max 1 (maxLen keys) ≤ ringLen (maxLen keys) := by
    obtain ⟨_, hge2, hge, _⟩ := ringLen_spec (maxLen keys)
    omega
  rw [queryLoop_eq_queryRev r2 (max 1 (maxLen keys)) (buildTrie keys) r2.cursor
    (ringLen (maxLen keys)) hstep hmax]
  have hcur : r2.cursor = ⟨r2.pos, ringLen (maxLen keys)⟩ := by
    rw [RingBuffer.cursor, hlen]
  rw [hcur, cursorReads_window r2 (ringLen (maxLen keys)) j hj hblen
    (ringLen (maxLen keys)) r2.pos hpos (le_refl _)]
  have hwinlen : ((r2.buffer.drop r2.pos ++ r2.buffer.take r2.pos).reverse).length =
      ringLen (maxLen keys) := by
    rw [List.length_reverse, List.length_append, List.length_drop, List.length_take]
    omega
  rw [List.take_of_length_le (by rw [hwinlen])]
  rw [Trie.query_str, ← hw]

/-- A keyword without the blank sentinel, no longer than the window, is a
suffix of the blank-padded window exactly when it is a suffix of the raw
stream. -/
theorem suffix_lastN_iff (k s : List Char) (L : Nat) (hkL : k.length ≤ L)
    (hsp : ' ' ∉ k) :
    k <:+ lastN L (List.replicate L ' ' ++ s) ↔ k <:+ s := by
  constructor
  · intro h
    have h2 : k <:+ List.replicate L ' ' ++ s :=
      h.trans (by rw [lastN]; exact List.drop_suffix _ _)
    obtain ⟨u, hu⟩ := h2
    have hlen : u.length + k.length = L + s.length := by
      have := congrArg List.length hu
      rw [List.length_append, List.length_append, List.length_replicate] at this
      exact this
    by_cases hks : k.length ≤ s.length
    · refine ⟨u.drop L, ?_⟩
      have h3 : (u ++ k).drop L = u.drop L ++ k :=
        List.drop_append_of_le_length (by omega)
      rw [hu] at h3
      rw [List.drop_append_of_le_length (by rw [List.length_replicate])] at h3
      rw [List.drop_replicate, Nat.sub_self, List.replicate_zero, List.nil_append] at h3
      exact h3.symm
    · exfalso
      have h3 : (u ++ k).drop u.length = k := List.drop_left u k
      rw [hu] at h3
      rw [List.drop_append_of_le_length (by rw [List.length_replicate]; omega)] at h3
      rw [List.drop_replicate] at h3
      apply hsp
      rw [← h3]
      exact List.mem_append.mpr (Or.inl (List.mem_replicate.mpr ⟨by omega, rfl⟩))
  · rintro ⟨v, hv⟩
    rw [lastN, List.length_append, List.length_replicate]
    have hLs : L + s.length - L = s.length := by omega
    rw [hLs]
    have hvlen : v.length + k.length = s.length := by
      have := congrArg List.length hv
      rw [List.length_append] at this
      exact this
    by_cases hsL : s.length ≤ L
    · rw [List.drop_append_of_le_length (by rw [List.length_replicate]; omega)]
      exact List.IsSuffix.trans ⟨v, hv⟩ (List.suffix_append _ s)
    · rw [List.drop_append_eq_append_drop, List.drop_replicate, List.length_replicate]
      have h0 : L - s.length = 0 := by omega
      rw [h0, List.replicate_zero, List.nil_append]
      refine ⟨v.drop (s.length - L), ?_⟩
      have h4 : (v ++ k).drop (s.length - L) = v.drop (s.length - L) ++ k :=
        List.drop_append_of_le_length (by omega)
      rw [hv] at h4
      exact h4.symm

/-! ## Congruence of the alerter in its keyword list -/

theorem foldl_max_perm (l l' : List (List Char)) (h : l.Perm l') :
    ∀ a : Nat, l.foldl (fun m k => max m k.length) a =
      l'.foldl (fun m k => max m k.length) a := by
  induction h with
  | nil => intro a; rfl
  | cons x h ih => intro a; rw [List.foldl_cons, List.foldl_cons, ih]
  | swap x y l =>
      intro a
      rw [List.foldl_cons, List.foldl_cons, List.foldl_cons, List.foldl_cons]
      congr 1
      omega
  | trans h1 h2 ih1 ih2 => intro a; rw [ih1, ih2]

theorem maxLen_perm (l l' : List (List Char)) (h : l.Perm l') : maxLen l = maxLen l' := by
  rw [maxLen, maxLen, maxLen_eq_foldl_max, maxLen_eq_foldl_max, foldl_max_perm l l' h]

theorem maxLen_middle_nil (l1 l2 : List (List Char)) :
    maxLen (l1 ++ [] :: l2) = maxLen (l1 ++ l2) := by
  rw [maxLen, maxLen, maxLen_eq_foldl_max, maxLen_eq_foldl_max, List.foldl_append,
    List.foldl_append, List.foldl_cons, List.length_nil, Nat.max_zero]

theorem query_str_ext (keys keys' : List (List Char))
    (hmem : ∀ k : List Char, k ≠ [] → (k ∈ keys ↔ k ∈ keys')) :
    ∀ w, Trie.query_str (buildTrie keys) w = Trie.query_str (buildTrie keys') w := by
  intro w
  rw [Bool.eq_iff_iff, query_str_iff, query_str_iff]
  constructor
  · rintro ⟨k, hk, hne, hs⟩; exact ⟨k, (hmem k hne).mp hk, hne, hs⟩
  · rintro ⟨k, hk, hne, hs⟩; exact ⟨k, (hmem k hne).mpr hk, hne, hs⟩

theorem runQueries_congr (keys keys' : List (List Char))
    (hL : ringLen (maxLen keys) = ringLen (maxLen keys'))
    (hq : ∀ w, Trie.query_str (buildTrie keys) w = Trie.query_str (buildTrie keys') w) :
    ∀ (s p : List Char),
      runQueries (feedAll (StreamAlerter.new keys) p) s =
        runQueries (feedAll (StreamAlerter.new keys') p) s := by
  intro s
  induction s with
  | nil => intro p; rfl
  | cons ch rest ih =>
      intro p
      rw [runQueries, runQueries]
      congr 1
      · rw [queryAt, queryAt, hL, hq]
      · rw [← feedAll_snoc, ← feedAll_snoc]
        exact ih (p ++ [ch])

/-! ## Remaining helper lemmas -/

theorem queryLoop_root_empty (r : RingBuffer) (cur : BackwardCursor) :
    queryLoop r (.node false []) cur = false := by
  rw [queryLoop_eq]
  rfl

theorem feed_trie (sa : StreamAlerter) (ch : Char) : (sa.feed ch).trie = sa.trie := rfl

theorem runQueries_trivial_trie :
    ∀ (s : List Char) (sa : StreamAlerter), sa.trie = .node false [] →
      ∀ b ∈ runQueries sa s, b = false := by
  intro s
  induction s with
  | nil => intro sa _ b hb; exact absurd hb (by rw [runQueries]; simp)
  | cons ch rest ih =>
      intro sa hsa b hb
      rw [runQueries] at hb
      rcases List.mem_cons.mp hb with h | h
      · subst h
        show queryLoop (sa.ring.insert ch) sa.trie (sa.ring.insert ch).cursor = false
        rw [hsa]
        exact queryLoop_root_empty _ _
      · exact ih (sa.feed ch) ((feed_trie sa ch).trans hsa) b h

/-- Under the no-blank-keyword precondition, a streaming query alarms exactly
when some non-empty keyword is a suffix of the characters fed so far. -/
theorem streaming_query_iff (keys : List (List Char))
    (hsp : ∀ k ∈ keys, ' ' ∉ k) (p : List Char) (ch : Char) :
    (feedAll (StreamAlerter.new keys) p).query ch = true ↔
      ∃ k ∈ keys, k ≠ [] ∧ k <:+ (p ++ [ch]) := by
  rw [queryAt, query_str_iff]
  constructor
  · rintro ⟨k, hk, hne, hs⟩
    refine ⟨k, hk, hne, ?_⟩
    exact (suffix_lastN_iff k (p ++ [ch]) _
      (le_trans (maxLen_ge keys k hk) (ringLen_spec _).2.2.1) (hsp k hk)).mp hs
  · rintro ⟨k, hk, hne, hs⟩
    refine ⟨k, hk, hne, ?_⟩
    exact (suffix_lastN_iff k (p ++ [ch]) _
      (le_trans (maxLen_ge keys k hk) (ringLen_spec _).2.2.1) (hsp k hk)).mpr hs

/-- The query loop returns, with its unbounded-loop value, within
`max 1 maxLen` iterations. -/
theorem query_bounded (keys : List (List Char)) (r : RingBuffer) (cur : BackwardCursor) :
    queryLoopF r (max 1 (maxLen keys)) (buildTrie keys) cur =
      some (queryLoop r (buildTrie keys) cur) := by
  obtain ⟨b, hb⟩ := queryLoopF_isSome_of_StepsOK r (max 1 (maxLen keys)) (buildTrie keys)
    (StepsOK_buildTrie keys) cur
  rw [hb, queryLoopF_some r _ _ _ b hb]

theorem ringInv_query (keys : List (List Char)) (p : List Char) (ch : Char) :
    RingInv (ringLen (maxLen keys))
      ((feedAll (StreamAlerter.new keys) p).ring.insert ch) (p ++ [ch]) := by
  rw [feedAll_ring]
  have h1 := ringInv_feed (ringLen (maxLen keys)) p (RingBuffer.new (maxLen keys)) []
    (ringInv_new _)
  rw [List.nil_append] at h1
  exact ringInv_insert _ _ _ ch h1

/-! ## Claim theorems -/

/-- C2: `Trie::query_str(text)` returns true exactly when some non-empty
registered keyword equals a tail (suffix) of `text` ending at `text`'s last
character; the backward scan always reaches the start of such a keyword
before any mismatch (its reversed path is present in the trie), and the
query returns false when the traversal runs out of text or hits a missing
child without having reached a terminal node. -/
theorem C2_query_str_suffix (keys : List (List Char)) (text : List Char) :
    Trie.query_str (buildTrie keys) text = true ↔
      ∃ k ∈ keys, k ≠ [] ∧ k <:+ text :=
  query_str_iff keys text

/-- C4: `RingBuffer::new(n)` produces the smallest power-of-two capacity that
is at least `n`, with a minimum of 2; in particular `new(3)` has capacity 4
and `new(0)` has capacity 2. -/
theorem C4_capacity_rounding (n : Nat) :
    (∃ j, (RingBuffer.new n).len = 2 ^ j) ∧ 2 ≤ (RingBuffer.new n).len ∧
      n ≤ (RingBuffer.new n).len ∧
      (∀ (m j : Nat), m = 2 ^ j → 2 ≤ m → n ≤ m → (RingBuffer.new n).len ≤ m) ∧
      (RingBuffer.new 3).len = 4 ∧ (RingBuffer.new 0).len = 2 := by
  obtain ⟨⟨j0, hj0⟩, h2, hn, hor⟩ := ringLen_spec n
  have hlen : (RingBuffer.new n).len = ringLen n := rfl
  refine ⟨⟨j0 + 1, by rw [hlen, hj0]⟩, by rw [hlen]; exact h2, by rw [hlen]; exact hn,
    ?_, ?_, ?_⟩
  · intro m j hm hm2 hnm
    rw [hlen]
    rcases hor with h | h
    · omega
    · have hj1 : 1 ≤ j := by
        by_contra hj1
        have : j = 0 := by omega
        rw [this] at hm
        omega
      have hlt : ringLen n < 2 ^ (j + 1) := by
        rw [pow_succ]
        omega
      rw [hj0] at hlt ⊢
      have : j0 + 1 < j + 1 := (Nat.pow_lt_pow_iff_right (by omega)).mp hlt
      rw [hm]
      exact Nat.pow_le_pow_right (by omega) (by omega)
  · show ringLen 3 = 4
    rw [ringLen_eq_fuel]
    decide
  · show ringLen 0 = 2
    rw [ringLen_eq_fuel]
    decide

/-- C5: for a cursor over a power-of-two capacity with in-range position,
every `next()` computes `(position + capacity - 1) mod capacity` (the masking
implementation agreeing with the modulus), stays in `[0, capacity)` after any
number of calls, and therefore only ever produces in-bounds indices for
`RingBuffer::get`. -/
theorem C5_cursor_safety (c : BackwardCursor) (j : Nat) (hl : c.len = 2 ^ j)
    (hi : c.idx < c.len) :
    ∀ n : Nat,
      (c.iter n).next.2 = ((c.iter n).idx + c.len - 1) % c.len ∧
      (c.iter n).next.2 < c.len ∧ (c.iter n).idx < c.len ∧
      ∀ r : RingBuffer, r.buffer.length = c.len →
        (c.iter n).next.2 < r.buffer.length := by
  intro n
  have hL1 : 1 ≤ c.len := by rw [hl]; exact Nat.one_le_two_pow
  obtain ⟨h1, h2⟩ := cursor_iter_inv c j hl hi n
  have hmod : (c.iter n).next.2 = ((c.iter n).idx + (c.len - 1)) % c.len := by
    have := cursor_next_mod (c.iter n) j (h1.trans hl)
    rw [h1] at this
    exact this
  have heq : (c.iter n).idx + (c.len - 1) = (c.iter n).idx + c.len - 1 := by omega
  have hlt : (c.iter n).next.2 < c.len := by
    rw [hmod]
    exact Nat.mod_lt _ (by omega)
  refine ⟨by rw [hmod, heq], hlt, h2, ?_⟩
  intro r hr
  rw [hr]
  exact hlt

/-- Witness for C5 at a concrete cursor. -/
theorem C5_witness :
    (⟨0, 2⟩ : BackwardCursor).len = 2 ^ 1 ∧
    (⟨0, 2⟩ : BackwardCursor).idx < (⟨0, 2⟩ : BackwardCursor).len ∧
    ((⟨0, 2⟩ : BackwardCursor).iter 3).next.2 =
      (((⟨0, 2⟩ : BackwardCursor).iter 3).idx + (⟨0, 2⟩ : BackwardCursor).len - 1) %
        (⟨0, 2⟩ : BackwardCursor).len :=
  ⟨by decide, by decide, (C5_cursor_safety ⟨0, 2⟩ 1 (by decide) (by decide) 3).1⟩

/-- C9: a streaming `query(ch)` returns exactly the boolean that
`Trie::query_str` returns on the window made of the buffer's `capacity` most
recent slots in chronological order after `ch` is inserted — the last
`capacity` characters of the stream, left-padded with the blank sentinel —
and that capacity is the ring's length. -/
theorem C9_window_refinement (keys : List (List Char)) (p : List Char) (ch : Char) :
    (feedAll (StreamAlerter.new keys) p).query ch =
      Trie.query_str (buildTrie keys)
        (lastN (ringLen (maxLen keys))
          (List.replicate (ringLen (maxLen keys)) ' ' ++ (p ++ [ch]))) ∧
    ((feedAll (StreamAlerter.new keys) p).ring.insert ch).len = ringLen (maxLen keys) :=
  ⟨queryAt keys p ch, (ringInv_query keys p ch).1⟩

/-- C7: alerters built from keyword lists that are permutations of each other
(duplicates allowed) produce identical outputs on every sequence of queries. -/
theorem C7_perm_invariant (keys keys' : List (List Char)) (h : keys.Perm keys')
    (s : List Char) :
    runQueries (StreamAlerter.new keys) s = runQueries (StreamAlerter.new keys') s := by
  have hL : ringLen (maxLen keys) = ringLen (maxLen keys') := by
    rw [maxLen_perm keys keys' h]
  have hq := query_str_ext keys keys' (fun k _ => h.mem_iff)
  exact runQueries_congr keys keys' hL hq s []

/-- Witness for C7 at a concrete permutation with a duplicate. -/
theorem C7_witness :
    ([['a'], ['b'], ['a']] : List (List Char)).Perm [['a'], ['a'], ['b']] ∧
    runQueries (StreamAlerter.new [['a'], ['b'], ['a']]) ['a', 'b', 'c'] =
      runQueries (StreamAlerter.new [['a'], ['a'], ['b']]) ['a', 'b', 'c'] :=
  ⟨by decide, C7_perm_invariant _ _ (by decide) _⟩

/-- C6: an alerter built from an empty keyword list never alarms, and an
empty keyword string inserted anywhere in the list changes neither the
streaming outputs nor any direct `query_str` answer. -/
theorem C6_empty_keywords :
    (∀ s : List Char, ∀ b ∈ runQueries (StreamAlerter.new []) s, b = false) ∧
    (∀ (l1 l2 : List (List Char)) (s : List Char),
      runQueries (StreamAlerter.new (l1 ++ [] :: l2)) s =
        runQueries (StreamAlerter.new (l1 ++ l2)) s) ∧
    (∀ (l1 l2 : List (List Char)) (w : List Char),
      Trie.query_str (buildTrie (l1 ++ [] :: l2)) w =
        Trie.query_str (buildTrie (l1 ++ l2)) w) := by
  have hmem : ∀ (l1 l2 : List (List Char)) (k : List Char), k ≠ [] →
      (k ∈ l1 ++ [] :: l2 ↔ k ∈ l1 ++ l2) := by
    intro l1 l2 k hne
    rw [List.mem_append, List.mem_append, List.mem_cons]
    constructor
    · rintro (h | h | h)
      · exact Or.inl h
      · exact absurd h hne
      · exact Or.inr h
    · rintro (h | h)
      · exact Or.inl h
      · exact Or.inr (Or.inr h)
  refine ⟨?_, ?_, ?_⟩
  · intro s b hb
    exact runQueries_trivial_trie s (StreamAlerter.new []) rfl b hb
  · intro l1 l2 s
    have hL : ringLen (maxLen (l1 ++ [] :: l2)) = ringLen (maxLen (l1 ++ l2)) := by
      rw [maxLen_middle_nil]
    exact runQueries_congr _ _ hL (query_str_ext _ _ (hmem l1 l2)) s []
  · intro l1 l2 w
    exact query_str_ext _ _ (hmem l1 l2) w

/-- C1 counterexample: with registered keyword `" a"` (blank then `a`), the
very first `query('a')` alarms although no registered keyword is a suffix of
the characters fed so far — the blank sentinel in the never-written slot is
matched as if it had been streamed. -/
theorem C1_counterexample :
    (StreamAlerter.new [[' ', 'a']]).query 'a' = true ∧
      ¬ ∃ k ∈ ([[' ', 'a']] : List (List Char)), k <:+ ['a'] := by
  constructor
  · have h2 : ringLen (maxLen [[' ', 'a']]) = 2 := by rw [ringLen_eq_fuel]; decide
    apply queryLoopF_some _ 5
    simp only [StreamAlerter.new, RingBuffer.new, h2]
    decide
  · decide

/-- C1 (amended): provided no registered keyword contains the blank sentinel
`' '`, `query(ch)` returns true exactly when some non-empty registered
keyword equals a suffix of the sequence of characters fed so far. -/
theorem C1_suffix_detection (keys : List (List Char))
    (hsp : ∀ k ∈ keys, ' ' ∉ k) (p : List Char) (ch : Char) :
    (feedAll (StreamAlerter.new keys) p).query ch = true ↔
      ∃ k ∈ keys, k ≠ [] ∧ k <:+ (p ++ [ch]) :=
  streaming_query_iff keys hsp p ch

/-- Witness for C1 at keyword "abc" after feeding `a`, `b`, then `c`. -/
theorem C1_witness :
    (∀ k ∈ ([['a', 'b', 'c']] : List (List Char)), ' ' ∉ k) ∧
    ((feedAll (StreamAlerter.new [['a', 'b', 'c']]) ['a', 'b']).query 'c' = true ↔
      ∃ k ∈ ([['a', 'b', 'c']] : List (List Char)), k ≠ [] ∧ k <:+ (['a', 'b'] ++ ['c'])) :=
  ⟨by decide, C1_suffix_detection [['a', 'b', 'c']] (by decide) ['a', 'b'] 'c'⟩

/-- C3 counterexample: for the empty keyword list, `maxLen = 0`, yet the
loop in `query` still performs its first iteration (reading one slot), so it
does not return "within at most `maxLen` iterations": with fuel `maxLen = 0`
the loop has not yet returned. -/
theorem C3_counterexample :
    maxLen [] = 0 ∧
    queryLoopF ((StreamAlerter.new []).ring.insert 'a') (maxLen [])
      (buildTrie []) ((StreamAlerter.new []).ring.insert 'a').cursor = none ∧
    (StreamAlerter.new []).query 'a' = false := by
  refine ⟨rfl, rfl, ?_⟩
  have h2 : ringLen (maxLen ([] : List (List Char))) = 2 := by rw [ringLen_eq_fuel]; decide
  apply queryLoopF_some _ 5
  simp only [StreamAlerter.new, RingBuffer.new, h2]
  decide

/-- C3 (amended): every `query` call terminates, its unbounded matching loop
returning its value within at most `max 1 maxLen` iterations (one iteration
is always needed, even with no keywords), and that bound never exceeds the
buffer capacity, so within one query no slot older than the buffer's
capacity most recent slots is ever read. -/
theorem C3_query_terminates (keys : List (List Char)) (p : List Char) (ch : Char) :
    queryLoopF ((feedAll (StreamAlerter.new keys) p).ring.insert ch)
        (max 1 (maxLen keys)) (buildTrie keys)
        ((feedAll (StreamAlerter.new keys) p).ring.insert ch).cursor =
      some ((feedAll (StreamAlerter.new keys) p).query ch) ∧
    max 1 (maxLen keys) ≤ ((feedAll (StreamAlerter.new keys) p).ring.insert ch).len := by
  constructor
  · have hq : (feedAll (StreamAlerter.new keys) p).query ch =
        queryLoop ((feedAll (StreamAlerter.new keys) p).ring.insert ch) (buildTrie keys)
          ((feedAll (StreamAlerter.new keys) p).ring.insert ch).cursor := by
      show queryLoop _ (feedAll (StreamAlerter.new keys) p).trie _ = _
      rw [feedAll_trie]
      rfl
    rw [hq]
    exact query_bounded keys _ _
  · rw [(ringInv_query keys p ch).1]
    obtain ⟨_, h2, hge, _⟩ := ringLen_spec (maxLen keys)
    omega

/-- C8: after inserting `a, b, c` into a fresh buffer of capacity 4
(requested size 3), a fresh cursor's successive `next()` reads yield
`c, b, a, ' '`; after one more insert of `d`, a fresh cursor reads
`d, c, b, a`. -/
theorem C8_backward_order :
    (RingBuffer.new 3).len = 4 ∧
    cursorReads ((((RingBuffer.new 3).insert 'a').insert 'b').insert 'c')
      ((((RingBuffer.new 3).insert 'a').insert 'b').insert 'c').cursor 4 =
        ['c', 'b', 'a', ' '] ∧
    cursorReads (((((RingBuffer.new 3).insert 'a').insert 'b').insert 'c').insert 'd')
      (((((RingBuffer.new 3).insert 'a').insert 'b').insert 'c').insert 'd').cursor 4 =
        ['d', 'c', 'b', 'a'] := by
  have h4 : ringLen 3 = 4 := by rw [ringLen_eq_fuel]; decide
  refine ⟨?_, ?_, ?_⟩
  · show ringLen 3 = 4
    exact h4
  · simp only [RingBuffer.new, h4]
    decide
  · simp only [RingBuffer.new, h4]
    decide

/-- C10 counterexample: the empty keyword contains no blank, is registered,
and is a suffix of every fed stream, yet `query` never alarms on its
account — the claim's "some registered keyword" must exclude the empty one. -/
theorem C10_counterexample :
    (∀ k ∈ ([[]] : List (List Char)), ' ' ∉ k) ∧
    (StreamAlerter.new [[]]).query 'a' = false ∧
    ∃ k ∈ ([[]] : List (List Char)), k <:+ ['a'] := by
  refine ⟨by decide, ?_, ⟨[], by decide, ⟨['a'], by decide⟩⟩⟩
  have h2 : ringLen (maxLen ([[]] : List (List Char))) = 2 := by
    rw [ringLen_eq_fuel]; decide
  apply queryLoopF_some _ 5
  simp only [StreamAlerter.new, RingBuffer.new, h2]
  decide

/-- C10 (amended): if no registered keyword contains the blank sentinel
`' '`, then `query(ch)` returns true exactly when some non-empty registered
keyword is a suffix of the characters actually fed so far. -/
theorem C10_no_blank_exact (keys : List (List Char))
    (hsp : ∀ k ∈ keys, ' ' ∉ k) (p : List Char) (ch : Char) :
    (feedAll (StreamAlerter.new keys) p).query ch = true ↔
      ∃ k ∈ keys, k ≠ [] ∧ k <:+ (p ++ [ch]) :=
  streaming_query_iff keys hsp p ch

/-- Witness for C10 at keyword "xy" after feeding `x` then `y`. -/
theorem C10_witness :
    (∀ k ∈ ([['x', 'y']] : List (List Char)), ' ' ∉ k) ∧
    ((feedAll (StreamAlerter.new [['x', 'y']]) ['x']).query 'y' = true ↔
      ∃ k ∈ ([['x', 'y']] : List (List Char)), k ≠ [] ∧ k <:+ (['x'] ++ ['y'])) :=
  ⟨by decide, C10_no_blank_exact [['x', 'y']] (by decide) ['x'] 'y'⟩
